import Mathlib

/-!
Shallow embedding of the fab-events-sync change-detection-and-dispatch
pipeline (discord-bot worker): event records, content hashing, diffing,
ingestion, formatting, chunking and the per-guild ledger dispatcher.

Conventions of the embedding:
* JavaScript strings are Lean `String`s; `x ?? null` / absent optional
  fields collapse to `Option.none` (JS `undefined` and `null` are never
  distinguished by the translated code, which normalises with `?? null`
  or truthiness tests before use).
* JS truthiness on optional strings is `some s` with `s` nonempty.
* The SQLite tables are association lists keyed as by their primary keys.
* External runtime facilities (the `Date.toLocaleString` localiser and
  the JSON parser) are parameters of the definitions that call them;
  everything else, including the SHA-256 digest, is executable Lean.
-/

namespace FabEvents

/-- `EventRecord` from `types.ts`: identity `(calendar_id, event_id)` plus
the mutable fields; optional fields are `Option`s, with absent and `null`
both `none`. -/
structure EventRecord where
  event_id : String
  calendar_id : String
  title : String
  starts_at : String
  ends_at : Option String
  url : Option String
  updated_at : Option String
  location : Option String
  is_global : Option Bool
  calendar_name : Option String
deriving DecidableEq

/-- `NotificationType` from `types.ts` (worker revision):
`'new_event' | 'event_changed'`. -/
inductive NotificationType where
  | new_event
  | event_changed
deriving DecidableEq

/-- A row of the `events` table (`db.ts`): primary key
`(calendar_id, event_id)`; `content_hash` is a nullable TEXT column. -/
structure StoredRow where
  calendar_id : String
  event_id : String
  title : String
  starts_at : String
  ends_at : Option String
  url : Option String
  location : Option String
  updated_at : Option String
  content_hash : Option String
deriving DecidableEq

/-- One entry of `DiffResult` from `diff.ts`. -/
structure DiffEntry where
  calendar_id : String
  event_id : String
  type : NotificationType
  payload : EventRecord
  previous : Option EventRecord
deriving DecidableEq

/-- A row of the `notifications_log` ledger table (`db.ts`): primary key
`(guild_id, calendar_id, event_id, type)`. -/
structure LKey where
  guild_id : String
  calendar_id : String
  event_id : String
  type : NotificationType
deriving DecidableEq

/-- One attempted outbound post: channel, message content, and whether the
transport call succeeded (`rest.post` not throwing). -/
structure Post where
  channel : String
  content : String
  ok : Bool
deriving DecidableEq

/-- Helper to build an `EventRecord` with only the required fields set. -/
def mkEv (cal ev title starts : String) : EventRecord :=
  ⟨ev, cal, title, starts, none, none, none, none, none, none⟩

/-! ## Generic string helpers (JS runtime semantics, List-level) -/

/-- JS truthiness of an optional string: present and nonempty. -/
def optTruthy (o : Option String) : Bool :=
  match o with
  | some s => s ≠ ""
  | none => false

/-- `pre` is a prefix of `l` (Boolean, character lists). -/
def startsWithL (pre l : List Char) : Bool :=
  match pre, l with
  | [], _ => true
  | _ :: _, [] => false
  | p :: ps, c :: cs => p == c && startsWithL ps cs

/-- `pat` occurs as a contiguous substring of `l`. -/
def hasSubL (pat : List Char) : List Char → Bool
  | [] => startsWithL pat []
  | c :: cs => startsWithL pat (c :: cs) || hasSubL pat cs

/-- JS `String.prototype.includes`. -/
def containsSub (s pat : String) : Bool :=
  hasSubL pat.data s.data

/-- JS `String.prototype.toLowerCase` (ASCII range, as used on filenames). -/
def lowerStr (s : String) : String :=
  String.mk (s.data.map Char.toLower)

/-- JS `String.prototype.trim`: drop leading and trailing whitespace. -/
def jsTrim (s : String) : String :=
  String.mk ((((s.data.dropWhile Char.isWhitespace).reverse).dropWhile
    Char.isWhitespace).reverse)

/-! ## SHA-256 (`crypto.createHash('sha256')`), executable over `Nat`
with explicit reduction mod 2^32. -/

/-- Truncate to a 32-bit word. -/
def w32 (n : Nat) : Nat := n % 4294967296

/-- Rotate a 32-bit word right by `b` bits. -/
def rotr (b n : Nat) : Nat := w32 ((n >>> b) ||| (n <<< (32 - b)))

/-- UTF-8 encoding of one character as a byte list. -/
def utf8Char (c : Char) : List Nat :=
  let n := c.toNat
  if n < 128 then [n]
  else if n < 2048 then [192 ||| (n >>> 6), 128 ||| (n &&& 63)]
  else if n < 65536 then
    [224 ||| (n >>> 12), 128 ||| ((n >>> 6) &&& 63), 128 ||| (n &&& 63)]
  else
    [240 ||| (n >>> 18), 128 ||| ((n >>> 12) &&& 63),
     128 ||| ((n >>> 6) &&& 63), 128 ||| (n &&& 63)]

/-- UTF-8 encoding of a string as a byte list. -/
def utf8Encode (s : String) : List Nat :=
  (s.data.map utf8Char).flatten

/-- SHA-256 padding: append `0x80`, zeros, then the 64-bit big-endian bit
length, reaching a multiple of 64 bytes. -/
def sha256pad (msg : List Nat) : List Nat :=
  let len := msg.length
  let zeros := (119 - (len % 64)) % 64
  let bits := len * 8
  msg ++ [128] ++ List.replicate zeros 0 ++
    ((List.range 8).map (fun i => (bits >>> (8 * (7 - i))) &&& 255))

/-- Split a byte list into chunks of `n` bytes (fuel-driven). -/
def chunksOfFuel (n : Nat) : Nat → List Nat → List (List Nat)
  | 0, _ => []
  | _, [] => []
  | fuel + 1, l => l.take n :: chunksOfFuel n fuel (l.drop n)

/-- Split a byte list into chunks of `n` bytes. -/
def chunksOf (n : Nat) (l : List Nat) : List (List Nat) :=
  chunksOfFuel n l.length l

/-- Big-endian bytes to word. -/
def beWord (bytes : List Nat) : Nat :=
  bytes.foldl (fun acc b => acc * 256 + b) 0

/-- SHA-256 round constants (decimal). -/
def shaK : List Nat :=
  [1116352408, 1899447441, 3049323471, 3921009573, 961987163,
   1508970993, 2453635748, 2870763221, 3624381080, 310598401,
   607225278, 1426881987, 1925078388, 2162078206, 2614888103,
   3248222580, 3835390401, 4022224774, 264347078, 604807628,
   770255983, 1249150122, 1555081692, 1996064986, 2554220882,
   2821834349, 2952996808, 3210313671, 3336571891, 3584528711,
   113926993, 338241895, 666307205, 773529912, 1294757372,
   1396182291, 1695183700, 1986661051, 2177026350, 2456956037,
   2730485921, 2820302411, 3259730800, 3345764771, 3516065817,
   3600352804, 4094571909, 275423344, 430227734, 506948616,
   659060556, 883997877, 958139571, 1322822218, 1537002063,
   1747873779, 1955562222, 2024104815, 2227730452, 2361852424,
   2428436474, 2756734187, 3204031479, 3329325298]

/-- SHA-256 initial hash state (decimal). -/
def shaH0 : List Nat :=
  [1779033703, 3144134277, 1013904242, 2773480762, 1359893119,
   2600822924, 528734635, 1541459225]

/-- Message-schedule small sigma 0. -/
def ssig0 (x : Nat) : Nat := (rotr 7 x) ^^^ (rotr 18 x) ^^^ (x >>> 3)

/-- Message-schedule small sigma 1. -/
def ssig1 (x : Nat) : Nat := (rotr 17 x) ^^^ (rotr 19 x) ^^^ (x >>> 10)

/-- Extend 16 words to the 64-word message schedule. -/
def shaSchedule (w16 : List Nat) : List Nat :=
  (List.range 48).foldl
    (fun w _ =>
      let n := w.length
      w ++ [w32 (ssig1 (w.getD (n - 2) 0) + w.getD (n - 7) 0 +
        ssig0 (w.getD (n - 15) 0) + w.getD (n - 16) 0)])
    w16

/-- Compression big sigma 0. -/
def bsig0 (x : Nat) : Nat := (rotr 2 x) ^^^ (rotr 13 x) ^^^ (rotr 22 x)

/-- Compression big sigma 1. -/
def bsig1 (x : Nat) : Nat := (rotr 6 x) ^^^ (rotr 11 x) ^^^ (rotr 25 x)

/-- One compression round on the working state `[a,b,c,d,e,f,g,h]`. -/
def shaRound (st : List Nat) (kw : Nat × Nat) : List Nat :=
  match st with
  | [a, b, c, d, e, f, g, h] =>
    let t1 := w32 (h + bsig1 e + ((e &&& f) ^^^ ((4294967295 ^^^ e) &&& g)) +
      kw.1 + kw.2)
    let t2 := w32 (bsig0 a + ((a &&& b) ^^^ (a &&& c) ^^^ (b &&& c)))
    [w32 (t1 + t2), a, b, c, w32 (d + t1), e, f, g]
  | other => other

/-- Process one 64-byte block: run 64 rounds and add into the state. -/
def shaBlock (hs : List Nat) (block : List Nat) : List Nat :=
  let w := shaSchedule ((chunksOf 4 block).map beWord)
  let st := (shaK.zip w).foldl shaRound hs
  (hs.zip st).map (fun p => w32 (p.1 + p.2))

/-- Hex digit character for a nibble. -/
def hexDigit (n : Nat) : Char :=
  if n < 10 then Char.ofNat (48 + n) else Char.ofNat (87 + n)

/-- A 32-bit word as 8 lowercase hex digits. -/
def toHex8 (w : Nat) : String :=
  String.mk ((List.range 8).map (fun i => hexDigit ((w >>> (4 * (7 - i))) &&& 15)))

/-- SHA-256 of a string (UTF-8), lowercase hex digest — the semantics of
`crypto.createHash('sha256').update(s).digest('hex')`. -/
def sha256hex (s : String) : String :=
  let hs := (chunksOf 64 (sha256pad (utf8Encode s))).foldl shaBlock shaH0
  String.join (hs.map toHex8)

/-! ## `hash.ts` -/

/-- JSON string escaping of one character, as `JSON.stringify` performs it. -/
def jsonEscapeChar (c : Char) : List Char :=
  if c = '"' then ['\\', '"']
  else if c = '\\' then ['\\', '\\']
  else if c = '\n' then ['\\', 'n']
  else if c = '\r' then ['\\', 'r']
  else if c = '\t' then ['\\', 't']
  else if c.toNat = 8 then ['\\', 'b']
  else if c.toNat = 12 then ['\\', 'f']
  else if c.toNat < 32 then
    ['\\', 'u', '0', '0', hexDigit (c.toNat >>> 4), hexDigit (c.toNat &&& 15)]
  else [c]

/-- A JSON string literal for `s`. -/
def jsonStr (s : String) : String :=
  "\"" ++ String.mk ((s.data.map jsonEscapeChar).flatten) ++ "\""

/-- A JSON value for an optional string: the literal or `null`. -/
def jsonOptStr (o : Option String) : String :=
  match o with
  | some s => jsonStr s
  | none => "null"

/-- The canonical JSON text `JSON.stringify` produces in `hashEvent`
(`hash.ts` lines 5-11): the five content fields, in this fixed key order,
with `?? null` normalisation. -/
def canonicalJson (e : EventRecord) : String :=
  "\x7b\"title\":" ++ jsonStr e.title ++
  ",\"starts_at\":" ++ jsonStr e.starts_at ++
  ",\"ends_at\":" ++ jsonOptStr e.ends_at ++
  ",\"url\":" ++ jsonOptStr e.url ++
  ",\"location\":" ++ jsonOptStr e.location ++ "\x7d"

/-- `hashEvent` from `hash.ts`: SHA-256 hex digest of the canonical JSON. -/
def hashEvent (e : EventRecord) : String :=
  sha256hex (canonicalJson e)

/-! ## `diff.ts` -/

/-- The prepared `SELECT ... FROM events WHERE calendar_id = ? AND
event_id = ?` lookup; `(calendar_id, event_id)` is the primary key, so at
most one row can match. -/
def lookupEv (table : List StoredRow) (cal ev : String) : Option StoredRow :=
  table.find? (fun r => r.calendar_id == cal && r.event_id == ev)

/-- The `previous : EventRecord` object built in `computeDiff` for a
CHANGED entry: identity from the incoming record, content fields from the
stored row (`?? null` normalised). -/
def priorOf (e : EventRecord) (prev : StoredRow) : EventRecord :=
  ⟨e.event_id, e.calendar_id, prev.title, prev.starts_at, prev.ends_at,
   prev.url, none, prev.location, none, none⟩

/-- The body of the `computeDiff` loop for one incoming record: look the
key up, push a `new_event` entry when absent, push an `event_changed`
entry (with the stored prior values) when the hash differs, push nothing
when equal. -/
def diffStep (table : List StoredRow) (results : List DiffEntry)
    (e : EventRecord) : List DiffEntry :=
  match lookupEv table e.calendar_id e.event_id with
  | none =>
    results ++ [⟨e.calendar_id, e.event_id, .new_event, e, none⟩]
  | some prev =>
    if prev.content_hash ≠ some (hashEvent e) then
      results ++
        [⟨e.calendar_id, e.event_id, .event_changed, e, some (priorOf e prev)⟩]
    else results

/-- `computeDiff` from `diff.ts`: the `for`-loop over incoming records
accumulating `results.push(...)`, reading the stored table only. -/
def computeDiff (table : List StoredRow) (events : List EventRecord) :
    List DiffEntry :=
  events.foldl (diffStep table) []

/-- Spec-side classification of one incoming record (spec section 4.3):
key lookup on `(calendar_id, event_id)`; absent stored row gives exactly
one NEW entry, a stored row with differing `content_hash` gives exactly
one CHANGED entry carrying the stored prior field values, an equal hash
gives no entry. Stated from the spec's words, to be compared with
`computeDiff`. -/
def classifySpec (table : List StoredRow) (e : EventRecord) :
    Option DiffEntry :=
  match lookupEv table e.calendar_id e.event_id with
  | none => some ⟨e.calendar_id, e.event_id, .new_event, e, none⟩
  | some prev =>
    if prev.content_hash ≠ some (hashEvent e) then
      some ⟨e.calendar_id, e.event_id, .event_changed, e, some (priorOf e prev)⟩
    else none

/-! ## Ingestion (`ingest.ts`, the revision with `calendar_name` labels) -/

/-- Case-insensitive test for the `.json` data extension
(`f.toLowerCase().endsWith('.json')`). -/
def endsWithJson (name : String) : Bool :=
  startsWithL (".json".data.reverse) ((lowerStr name).data.reverse)

/-- The regex replace `/\.json$/i` with the empty string. -/
def stripJsonExt (base : String) : String :=
  if endsWithJson base then String.mk (base.data.take (base.data.length - 5))
  else base

/-- Map `_` and `-` to a space (the `/[_-]+/g` replace; runs of
separators become runs of spaces, which the whitespace split collapses
exactly as the single-space replacement would). -/
def sepToSpace (c : Char) : Char :=
  if c == '_' || c == '-' then ' ' else c

/-- Split into maximal non-whitespace runs (the `.trim().split(/\s+/)`
tokenisation; the JS corner case of an all-whitespace stem yields `[""]`
there and `[]` here, and both end in the `null` result below). -/
def wordsGo : List Char → List Char → List (List Char)
  | cur, [] => if cur.isEmpty then [] else [cur.reverse]
  | cur, c :: cs =>
    if c.isWhitespace then
      if cur.isEmpty then wordsGo [] cs else cur.reverse :: wordsGo [] cs
    else wordsGo (c :: cur) cs

/-- `w.charAt(0).toUpperCase() + w.slice(1)`. -/
def titleCaseW (w : List Char) : List Char :=
  match w with
  | [] => []
  | c :: cs => Char.toUpper c :: cs

/-- `humanizeFromFilename` from `ingest.ts`: keyword match first, then
title-cased filename stem, empty result becoming `null`. -/
def humanizeFromFilename (base : String) : Option String :=
  let stem := stripJsonExt base
  let s := lowerStr stem
  if containsSub s "global" then some "Global Events"
  else if containsSub s "dfw" then some "DFW Events"
  else
    let ws := wordsGo [] (stem.data.map sepToSpace)
    let titled := String.intercalate " " (ws.map (fun w => String.mk (titleCaseW w)))
    if titled = "" then none else some titled

/-- Outcome of the runtime `JSON.parse` on a file's raw text: an
exception, a non-array JSON value, or an array whose elements the code
casts to `EventRecord` unchecked. The parser itself is external runtime
code, so definitions that need it take it as a parameter. -/
inductive ParseOutcome where
  | err
  | nonArray
  | arr (recs : List EventRecord)
deriving DecidableEq

/-- The load's error taxonomy: `statSync` on a missing path (IOError) or
a `JSON.parse` exception (ParseError), both propagating out of
`loadEventsFromJson` uncaught. -/
inductive LoadErr where
  | ioErr
  | parseErr
deriving DecidableEq

/-- A directory entry: basename and raw file contents. -/
structure FileEntry where
  name : String
  raw : String
deriving DecidableEq

/-- What `statSync` finds at the resolved path: a single file (with its
basename and contents) or a directory listing in `readdirSync` order. -/
inductive FsNode where
  | file (name raw : String)
  | dir (files : List FileEntry)
deriving DecidableEq

/-- The per-record tagging inside `loadFile`: `r.is_global = isGlobal`
always, `r.calendar_name = label` only when the label is truthy. -/
def tagRec (r : EventRecord) (g : Bool) (label : Option String) :
    EventRecord :=
  let r1 := { r with is_global := some g }
  match label with
  | some l => { r1 with calendar_name := some l }
  | none => r1

/-- The `loadFile` closure from `ingest.ts`: blank files are skipped,
a `JSON.parse` exception propagates (there is no try/catch), non-array
JSON contributes nothing, and an array's records are tagged with the
filename-derived `is_global` flag and `calendar_name` label. -/
def loadFileM (parse : String → ParseOutcome) (f : FileEntry) :
    Except LoadErr (List EventRecord) :=
  if jsTrim f.raw = "" then .ok []
  else
    match parse f.raw with
    | .err => .error .parseErr
    | .nonArray => .ok []
    | .arr recs =>
      let base := lowerStr f.name
      let isGlobal := containsSub base "global"
      let label := humanizeFromFilename f.name
      .ok (recs.map (fun r => tagRec r isGlobal label))

/-- The directory loop of `loadEventsFromJson`: files in listing order,
results appended in file order; the first thrown `ParseError` aborts the
whole call. -/
def loadDirFiles (parse : String → ParseOutcome) :
    List FileEntry → Except LoadErr (List EventRecord)
  | [] => .ok []
  | f :: rest =>
    match loadFileM parse f with
    | .error e => .error e
    | .ok recs => (loadDirFiles parse rest).map (fun more => recs ++ more)

/-- `loadEventsFromJson` from `ingest.ts`: a missing path makes `statSync`
throw (IOError); a directory loads every `.json`-named file in listing
order; a single file loads directly (no extension filter). -/
def loadEventsFromJson (parse : String → ParseOutcome)
    (fsEntry : Option FsNode) : Except LoadErr (List EventRecord) :=
  match fsEntry with
  | none => .error .ioErr
  | some (.file name raw) => loadFileM parse ⟨name, raw⟩
  | some (.dir files) =>
    loadDirFiles parse (files.filter (fun f => endsWithJson f.name))

/-! ## `upsertEvents` (`ingest.ts`) -/

/-- The row `upsertEvents` binds for one record: all mutable fields
`?? null` normalised, `content_hash` recomputed with `hashEvent`. -/
def toStoredRow (e : EventRecord) : StoredRow :=
  ⟨e.calendar_id, e.event_id, e.title, e.starts_at, e.ends_at, e.url,
   e.location, e.updated_at, some (hashEvent e)⟩

/-- Two rows share the `(calendar_id, event_id)` primary key. -/
def sameKeyRow (q r : StoredRow) : Bool :=
  q.calendar_id == r.calendar_id && q.event_id == r.event_id

/-- `INSERT ... ON CONFLICT(calendar_id, event_id) DO UPDATE SET ...`:
replace the conflicting primary-key row, else append. (The primary key
makes at most one row match; replacing every match keeps the operation
total on arbitrary lists.) -/
def upsertRow (t : List StoredRow) (r : StoredRow) : List StoredRow :=
  if t.any (fun q => sameKeyRow q r) then
    t.map (fun q => if sameKeyRow q r then r else q)
  else t ++ [r]

/-- `upsertEvents` from `ingest.ts`: one transactional pass over the
batch, upserting each record with its recomputed hash. -/
def upsertEvents (table : List StoredRow) (events : List EventRecord) :
    List StoredRow :=
  events.foldl (fun t e => upsertRow t (toStoredRow e)) table

/-! ## `notify.ts`, broadcast revision (chunked channel messages) -/

/-- `` e.calendarName ? ` [${e.calendarName}]` : '' ``. -/
def calSuffix (o : Option String) : String :=
  match o with
  | some n => if n ≠ "" then " [" ++ n ++ "]" else ""
  | none => ""

/-- `` e.url ? `<sep>${e.url}` : '' ``. -/
def linkSuffix (sep : String) (o : Option String) : String :=
  match o with
  | some u => if u ≠ "" then sep ++ u else ""
  | none => ""

/-- `formatEventLine` from the broadcast revision of `notify.ts`;
`fmtWhen` is the external `formatWhen` localiser
(`Date#toLocaleString` in the configured timezone). -/
def formatEventLine (fmtWhen : String → String)
    (title starts_at : String) (url calName : Option String) : String :=
  "- " ++ title ++ calSuffix calName ++ " @ " ++ fmtWhen starts_at ++
    linkSuffix " - " url

/-- `` prev.ends_at ? formatWhen(prev.ends_at) : 'none' ``. -/
def renderEndOpt (fmtWhen : String → String) (o : Option String) : String :=
  match o with
  | some s => if s ≠ "" then fmtWhen s else "none"
  | none => "none"

/-- `formatChange` from `notify.ts`: sequential pushes onto `changes`
in source order — date/time, end, location, url, title — then
`changes.join(' | ')`. -/
def formatChange (fmtWhen : String → String) (prev next : EventRecord) :
    String :=
  let changes : List String := []
  let changes :=
    if prev.starts_at ≠ next.starts_at then
      changes ++ ["date/time: " ++ fmtWhen prev.starts_at ++ " -> " ++
        fmtWhen next.starts_at]
    else changes
  let changes :=
    if prev.ends_at.getD "" ≠ next.ends_at.getD "" then
      changes ++ ["end: " ++ renderEndOpt fmtWhen prev.ends_at ++ " -> " ++
        renderEndOpt fmtWhen next.ends_at]
    else changes
  let changes :=
    if prev.location.getD "" ≠ next.location.getD "" then
      changes ++ ["location: " ++ prev.location.getD "none" ++ " -> " ++
        next.location.getD "none"]
    else changes
  let changes :=
    if prev.url.getD "" ≠ next.url.getD "" then
      changes ++ ["url: " ++ prev.url.getD "none" ++ " -> " ++
        next.url.getD "none"]
    else changes
  let changes :=
    if prev.title ≠ next.title then
      changes ++ ["title: " ++ prev.title ++ " -> " ++ next.title]
    else changes
  String.intercalate " | " changes

/-- Spec-side change summary (spec section 4.4): the ordered field list
{date/time, end, location, url, title}, each included exactly when its
before/after values differ, rendered as in the code. Stated from the
spec's words, to be compared with `formatChange`. -/
def changedFieldsSpec (fmtWhen : String → String) (prev next : EventRecord) :
    List String :=
  [(decide (prev.starts_at ≠ next.starts_at),
    "date/time: " ++ fmtWhen prev.starts_at ++ " -> " ++ fmtWhen next.starts_at),
   (decide (prev.ends_at.getD "" ≠ next.ends_at.getD ""),
    "end: " ++ renderEndOpt fmtWhen prev.ends_at ++ " -> " ++
      renderEndOpt fmtWhen next.ends_at),
   (decide (prev.location.getD "" ≠ next.location.getD ""),
    "location: " ++ prev.location.getD "none" ++ " -> " ++
      next.location.getD "none"),
   (decide (prev.url.getD "" ≠ next.url.getD ""),
    "url: " ++ prev.url.getD "none" ++ " -> " ++ next.url.getD "none"),
   (decide (prev.title ≠ next.title),
    "title: " ++ prev.title ++ " -> " ++ next.title)].filterMap
    (fun p => if p.1 then some p.2 else none)

/-- The line-building loop of the broadcast `sendNotifications`:
`new_event` entries through `formatEventLine`, `event_changed` entries
(with a `previous`) as an UPDATE line plus the change summary. -/
def buildLines (fmtWhen : String → String) (diffs : List DiffEntry) :
    List String :=
  diffs.foldl
    (fun lines d =>
      match d.type with
      | .new_event =>
        lines ++ [formatEventLine fmtWhen d.payload.title d.payload.starts_at
          d.payload.url d.payload.calendar_name]
      | .event_changed =>
        match d.previous with
        | some prevE =>
          lines ++ ["- UPDATE: " ++ d.payload.title ++
            calSuffix d.payload.calendar_name ++ " @ " ++
            fmtWhen d.payload.starts_at ++ "\n  -> " ++
            formatChange fmtWhen prevE d.payload]
        | none => lines)
    []

/-- `'Updates from FAB Events:'`. -/
def ntfHeader : String := "Updates from FAB Events:"

/-- The `SITE_URL` default. -/
def siteUrl : String := "https://fabevents.chaco.dev"

/-- `` `\n\nBrowse and subscribe: ${SITE_URL}` ``. -/
def ntfFooter : String := "\n\nBrowse and subscribe: " ++ siteUrl

/-- `const maxLen = 4000`. -/
def maxMsgLen : Nat := 4000

/-- The chunking loop state: closed chunks plus the open `current`. -/
structure ChunkSt where
  chunks : List String
  current : String
deriving DecidableEq

/-- One iteration of the chunking loop: if adding the line (plus footer)
would exceed the budget, close the current chunk and start a fresh one
with the header; otherwise append the line. -/
def chunkStep (header footer : String) (maxLen : Nat) (st : ChunkSt)
    (line : String) : ChunkSt :=
  if maxLen < (st.current ++ "\n" ++ line).length + footer.length then
    ⟨st.chunks ++ [st.current], header ++ "\n" ++ line⟩
  else
    ⟨st.chunks, st.current ++ "\n" ++ line⟩

/-- The whole chunking pass of the broadcast `sendNotifications`:
greedy packing starting from the bare header, then
`if (current.trim()) chunks.push(current)`. -/
def chunkLines (header footer : String) (maxLen : Nat)
    (lines : List String) : List String :=
  let st := lines.foldl (chunkStep header footer maxLen) ⟨[], header⟩
  if jsTrim st.current ≠ "" then st.chunks ++ [st.current] else st.chunks

/-- The outbound message bodies: each chunk plus the footer, as posted
per channel. -/
def messageContents (lines : List String) : List String :=
  (chunkLines ntfHeader ntfFooter maxMsgLen lines).map
    (fun c => c ++ ntfFooter)

/-- The full rendered text of a line list after an initial segment: what
a single unchunked message body (before the footer) would be. -/
def joinedAfter (init : String) (lines : List String) : String :=
  lines.foldl (fun acc l => acc ++ "\n" ++ l) init

/-- The broadcast `sendNotifications` (guards passed): build lines,
return early when there are none, else post every chunk to every
configured channel, catching per-post transport failures. -/
def sendNotificationsV2 (fmtWhen : String → String)
    (sendOk : String → String → Bool) (channelIds : List String)
    (diffs : List DiffEntry) : List Post :=
  let lines := buildLines fmtWhen diffs
  if lines = [] then []
  else
    (channelIds.map (fun ch =>
      (messageContents lines).map (fun m => Post.mk ch m (sendOk ch m)))).flatten

/-! ## `notify.ts`, guild/ledger revision -/

/-- `formatEventLine` from the guild revision of `notify.ts`. -/
def formatEventLineV1 (fmtWhen : String → String)
    (title starts_at : String) (url calName : Option String) : String :=
  "• " ++ title ++ calSuffix calName ++ " — " ++ fmtWhen starts_at ++
    linkSuffix " — " url

/-- `SELECT guild_id, channel_id FROM guild_settings WHERE channel_id IS
NOT NULL`. -/
def guildRows (gs : List (String × Option String)) : List (String × String) :=
  gs.filterMap (fun p =>
    match p.2 with
    | some ch => some (p.1, ch)
    | none => none)

/-- `SELECT 1 FROM guild_calendar_subscriptions WHERE guild_id = ? AND
calendar_id = ?` as a membership test. -/
def subscribedB (subs : List (String × String)) (g cal : String) : Bool :=
  subs.any (fun p => p.1 == g && p.2 == cal)

/-- `SELECT name FROM calendars WHERE calendar_id = ?`, with
`nameRow?.name ?? null`. -/
def calNameLookup (cals : List (String × Option String)) (cal : String) :
    Option String :=
  match cals.find? (fun p => p.1 == cal) with
  | some p => p.2
  | none => none

/-- `INSERT OR IGNORE INTO notifications_log(...)`: append the key unless
a row with that primary key already exists. -/
def ledgerInsert (L : List LKey) (k : LKey) : List LKey :=
  if k ∈ L then L else L ++ [k]

/-- The ledger key the guild loop inserts for one diff entry. -/
def lkeyOf (g : String) (d : DiffEntry) : LKey :=
  ⟨g, d.calendar_id, d.event_id, d.type⟩

/-- One iteration of the inner diff loop of the guild revision: skip
unsubscribed calendars, do the (or-ignore) ledger insert, and push the
formatted line — unconditionally, with no ledger consultation. -/
def guildStep (fmtWhen : String → String) (subs : List (String × String))
    (cals : List (String × Option String)) (g : String)
    (st : List LKey × List String) (d : DiffEntry) :
    List LKey × List String :=
  if subscribedB subs g d.calendar_id then
    (ledgerInsert st.1 (lkeyOf g d),
     st.2 ++ [formatEventLineV1 fmtWhen d.payload.title d.payload.starts_at
       d.payload.url (calNameLookup cals d.calendar_id)])
  else st

/-- One iteration of the outer guild loop: run the diff loop, skip a
guild with no lines, else join the lines and attempt one post (a failure
is only logged). -/
def guildFoldStep (fmtWhen : String → String)
    (sendOk : String → String → Bool) (subs : List (String × String))
    (cals : List (String × Option String)) (diffs : List DiffEntry)
    (st : List LKey × List Post) (row : String × String) :
    List LKey × List Post :=
  let r := diffs.foldl (guildStep fmtWhen subs cals row.1) (st.1, [])
  if r.2 = [] then (r.1, st.2)
  else
    let content := String.intercalate "\n" r.2
    (r.1, st.2 ++ [Post.mk row.2 content (sendOk row.2 content)])

/-- The guild/ledger `sendNotifications` (token guard passed): fold the
guild loop over the settings rows, threading the `notifications_log`
ledger, and return the final ledger with the attempted posts. -/
def sendNotificationsV1 (fmtWhen : String → String)
    (sendOk : String → String → Bool) (gs : List (String × Option String))
    (subs : List (String × String)) (cals : List (String × Option String))
    (diffs : List DiffEntry) (L0 : List LKey) : List LKey × List Post :=
  (guildRows gs).foldl (guildFoldStep fmtWhen sendOk subs cals diffs) (L0, [])

/-! ## Concrete fixtures for closed instances -/

/-- Identity localiser: a concrete instance of the external `formatWhen`
parameter for closed statements. -/
def strId (s : String) : String := s

/-- A concrete event record. -/
def evT1 : EventRecord := mkEv "A" "E" "T1" "S"

/-- A record with the same `(calendar_id, event_id)` key as `evT1` but a
different title. -/
def evT2 : EventRecord := mkEv "A" "E" "T2" "S"

/-- A concrete NEW diff entry. -/
def dNew : DiffEntry := ⟨"A", "E", .new_event, mkEv "A" "E" "T" "S", none⟩

/-- A concrete NEW diff entry whose payload is flagged global. -/
def dNewGlobal : DiffEntry :=
  ⟨"A", "E", .new_event,
   { mkEv "A" "E" "T" "S" with is_global := some true }, none⟩

/-- A concrete table-driven instance of the external JSON parser, for
closed statements about the loader. -/
def toyParse (s : String) : ParseOutcome :=
  if s = "[]" then .arr []
  else if s = "[1]" then .arr [mkEv "A" "E" "T" "S"]
  else if s = "obj" then .nonArray
  else .err

/-- A line longer than the whole message budget. -/
def bigLine : String := String.mk (List.replicate 3930 'a')

/-! ## Shared lemmas -/

/-- A non-whitespace character survives `dropWhile isWhitespace`. -/
theorem mem_dropWhile_of_not (p : Char → Bool) (l : List Char) (c : Char)
    (hc : c ∈ l) (hp : p c = false) : c ∈ l.dropWhile p := by
  induction l with
  | nil => cases hc
  | cons a l ih =>
    by_cases ha : p a = true
    · rw [List.dropWhile_cons_of_pos ha]
      rcases List.mem_cons.mp hc with h | h
      · subst h; rw [hp] at ha; cases ha
      · exact ih h
    · rw [List.dropWhile_cons_of_neg ha]
      exact hc

/-- A string with a non-whitespace character does not trim to empty. -/
theorem jsTrim_ne_empty (s : String) (c : Char) (hc : c ∈ s.data)
    (hp : c.isWhitespace = false) : jsTrim s ≠ "" := by
  intro h
  have hdata : ((((s.data.dropWhile Char.isWhitespace).reverse).dropWhile
      Char.isWhitespace).reverse) = [] := by
    have := congrArg String.data h
    simpa [jsTrim] using this
  rw [List.reverse_eq_nil_iff, List.dropWhile_eq_nil_iff] at hdata
  have h1 : c ∈ s.data.dropWhile Char.isWhitespace :=
    mem_dropWhile_of_not _ _ _ hc hp
  have h2 : c ∈ (s.data.dropWhile Char.isWhitespace).reverse :=
    List.mem_reverse.mpr h1
  have := hdata c h2
  rw [hp] at this
  cases this

/-- A string starting with the notification header does not trim to
empty. -/
theorem jsTrim_header_ne_empty (t : String) :
    jsTrim (ntfHeader ++ t) ≠ "" := by
  apply jsTrim_ne_empty _ 'U'
  · rw [String.data_append]
    exact List.mem_append.mpr (Or.inl (by decide))
  · decide

/-! ## C3: `computeDiff` classification -/

/-- The `computeDiff` accumulation is the `filterMap` of the spec-side
classification. -/
theorem diffFold_filterMap (table : List StoredRow)
    (events : List EventRecord) :
    ∀ acc : List DiffEntry,
      events.foldl (diffStep table) acc =
        acc ++ events.filterMap (classifySpec table) := by
  induction events with
  | nil => intro acc; simp
  | cons e rest ih =>
    intro acc
    rw [List.foldl_cons, List.filterMap_cons, ih]
    cases h : lookupEv table e.calendar_id e.event_id with
    | none =>
      simp [diffStep, classifySpec, h]
    | some prev =>
      by_cases hh : prev.content_hash ≠ some (hashEvent e)
      · simp [diffStep, classifySpec, h, hh]
      · simp [diffStep, classifySpec, h, hh]

/-- C3: for each incoming record, `computeDiff` classifies by key lookup
on `(calendar_id, event_id)`: no stored row yields exactly one NEW entry,
a stored row whose `content_hash` differs from `hashEvent` of the
incoming record yields exactly one CHANGED entry carrying the stored
prior values of title, starts_at, ends_at, url and location, and a stored
row with equal hash yields no entry — i.e. the diff is exactly the
per-record `filterMap` of the spec-side classification, in input order. -/
theorem computeDiff_classifies_by_key (table : List StoredRow)
    (events : List EventRecord) :
    computeDiff table events = events.filterMap (classifySpec table) := by
  rw [computeDiff, diffFold_filterMap]
  simp

/-! ## C4: the hash depends only on the five content fields -/

/-- C4: `hashEvent` depends only on {title, starts_at, ends_at, url,
location} (absent optionals and `null` both being `none`): two records
agreeing on those five fields hash identically, whatever their other
fields; determinism is immediate since `hashEvent` is a pure function. -/
theorem hashEvent_content_fields_only (e1 e2 : EventRecord)
    (ht : e1.title = e2.title) (hs : e1.starts_at = e2.starts_at)
    (he : e1.ends_at = e2.ends_at) (hu : e1.url = e2.url)
    (hl : e1.location = e2.location) : hashEvent e1 = hashEvent e2 := by
  simp [hashEvent, canonicalJson, ht, hs, he, hu, hl]

/-- Witness for C4: records differing in identity, `updated_at`,
`is_global` and `calendar_name` but agreeing on the five content fields
hash identically. -/
theorem hashEvent_content_fields_only_witness :
    hashEvent (mkEv "A" "E" "T" "S") =
      hashEvent { mkEv "B" "F" "T" "S" with
        updated_at := some "Z", is_global := some true,
        calendar_name := some "Cal" } :=
  hashEvent_content_fields_only _ _ rfl rfl rfl rfl rfl

/-! ## C9: the change summary -/

/-- C9: `formatChange` produces exactly the fields among {date/time, end,
location, url, title} whose before/after values differ (absent optional
values comparing as empty and rendering as `none`), joined by `' | '` in
that fixed order — the `filterMap` of the spec-side field list. -/
theorem formatChange_matches_spec (fmtWhen : String → String)
    (prev next : EventRecord) :
    formatChange fmtWhen prev next =
      String.intercalate " | " (changedFieldsSpec fmtWhen prev next) := by
  unfold formatChange changedFieldsSpec
  by_cases h1 : prev.starts_at ≠ next.starts_at <;>
  by_cases h2 : prev.ends_at.getD "" ≠ next.ends_at.getD "" <;>
  by_cases h3 : prev.location.getD "" ≠ next.location.getD "" <;>
  by_cases h4 : prev.url.getD "" ≠ next.url.getD "" <;>
  by_cases h5 : prev.title ≠ next.title <;>
  simp [h1, h2, h3, h4, h5]

/-! ## Store lemmas: `lookupEv` after `upsertRow` / `upsertEvents` -/

/-- Finding the upserted key in the map branch of `upsertRow`. -/
theorem find?_upsert_map (t : List StoredRow) (r : StoredRow) :
    (t.map (fun q => if sameKeyRow q r then r else q)).find?
      (fun q => q.calendar_id == r.calendar_id && q.event_id == r.event_id) =
      if t.any (fun q => sameKeyRow q r) then some r else none := by
  induction t with
  | nil => rfl
  | cons q t ih =>
    by_cases h : sameKeyRow q r = true
    · rw [List.map_cons, if_pos h, List.any_cons, h, Bool.true_or,
        List.find?_cons_of_pos _ (by simp)]
      simp
    · rw [List.map_cons, if_neg h, List.any_cons,
        Bool.eq_false_iff.mpr h, Bool.false_or,
        List.find?_cons_of_neg, ih]
      exact h

/-- The self-key predicate of `sameKeyRow` holds reflexively. -/
theorem sameKeyRow_self (r : StoredRow) : sameKeyRow r r = true := by
  unfold sameKeyRow
  simp

/-- After `upsertRow t r`, looking up `r`'s key finds exactly `r`. -/
theorem lookupEv_upsertRow_self (t : List StoredRow) (r : StoredRow) :
    lookupEv (upsertRow t r) r.calendar_id r.event_id = some r := by
  unfold lookupEv upsertRow
  by_cases h : t.any (fun q => sameKeyRow q r) = true
  · rw [if_pos h]
    have heq := find?_upsert_map t r
    rw [heq, if_pos h]
  · rw [if_neg h, List.find?_append]
    have hnone : t.find?
        (fun q => q.calendar_id == r.calendar_id && q.event_id == r.event_id) =
        none := by
      rw [List.find?_eq_none]
      intro x hx hpx
      exact h (List.any_eq_true.mpr ⟨x, hx, hpx⟩)
    rw [hnone, Option.none_or, List.find?_cons_of_pos]
    exact sameKeyRow_self r

/-- `find?` commutes with a map that preserves the predicate and fixes
every element satisfying it. -/
theorem find?_map_presv {α : Type} {f : α → α} {p : α → Bool} (l : List α)
    (hpres : ∀ x, p (f x) = p x) (hid : ∀ x, p x = true → f x = x) :
    (l.map f).find? p = l.find? p := by
  induction l with
  | nil => rfl
  | cons a l ih =>
    by_cases h : p a = true
    · rw [List.map_cons, List.find?_cons_of_pos _ ((hpres a).trans h),
        List.find?_cons_of_pos _ h, hid a h]
    · rw [List.map_cons,
        List.find?_cons_of_neg _ (by rw [hpres a]; exact h),
        List.find?_cons_of_neg _ h, ih]

/-- `upsertRow` leaves lookups at every other key unchanged. -/
theorem lookupEv_upsertRow_other (t : List StoredRow) (r : StoredRow)
    (c v : String) (h : ¬(r.calendar_id = c ∧ r.event_id = v)) :
    lookupEv (upsertRow t r) c v = lookupEv t c v := by
  have hpr : ((r.calendar_id == c && r.event_id == v) = true) → False := by
    intro hb
    rw [Bool.and_eq_true, beq_iff_eq, beq_iff_eq] at hb
    exact h hb
  unfold lookupEv upsertRow
  by_cases hany : t.any (fun q => sameKeyRow q r) = true
  · rw [if_pos hany]
    apply find?_map_presv
    · intro q
      by_cases hq : sameKeyRow q r = true
      · rw [if_pos hq]
        have hk : q.calendar_id = r.calendar_id ∧ q.event_id = r.event_id := by
          have := hq
          rw [sameKeyRow, Bool.and_eq_true, beq_iff_eq, beq_iff_eq] at this
          exact this
        cases hq2 : (q.calendar_id == c && q.event_id == v)
        · cases hq3 : (r.calendar_id == c && r.event_id == v)
          · rfl
          · exact absurd hq3 hpr
        · rw [Bool.and_eq_true, beq_iff_eq, beq_iff_eq] at hq2
          exact absurd (Bool.and_eq_true _ _ ▸
            ⟨beq_iff_eq.mpr (hk.1 ▸ hq2.1), beq_iff_eq.mpr (hk.2 ▸ hq2.2)⟩) hpr
      · rw [if_neg hq]
    · intro q hq
      by_cases hsk : sameKeyRow q r = true
      · exfalso
        have hk : q.calendar_id = r.calendar_id ∧ q.event_id = r.event_id := by
          rw [sameKeyRow, Bool.and_eq_true, beq_iff_eq, beq_iff_eq] at hsk
          exact hsk
        rw [Bool.and_eq_true, beq_iff_eq, beq_iff_eq] at hq
        exact hpr (Bool.and_eq_true _ _ ▸
          ⟨beq_iff_eq.mpr (hk.1 ▸ hq.1), beq_iff_eq.mpr (hk.2 ▸ hq.2)⟩)
      · rw [if_neg hsk]
  · rw [if_neg hany, List.find?_append]
    have hr : (r.calendar_id == c && r.event_id == v) = false := by
      cases hq3 : (r.calendar_id == c && r.event_id == v)
      · rfl
      · exact absurd hq3 hpr
    cases hfind : t.find? (fun q => q.calendar_id == c && q.event_id == v) with
    | none =>
      rw [Option.none_or, List.find?_cons_of_neg _ (by simp [hr]),
        List.find?_nil]
    | some q => rfl

/-- `upsertEvents` over a batch touching none of the key `(c, v)` leaves
its lookup unchanged. -/
theorem lookupEv_upsertEvents_untouched (events : List EventRecord) :
    ∀ (t : List StoredRow) (c v : String),
      (∀ e ∈ events, ¬(e.calendar_id = c ∧ e.event_id = v)) →
      lookupEv (upsertEvents t events) c v = lookupEv t c v := by
  induction events with
  | nil => intro t c v _; rfl
  | cons x rest ih =>
    intro t c v h
    have hstep : upsertEvents t (x :: rest) =
        upsertEvents (upsertRow t (toStoredRow x)) rest := rfl
    rw [hstep, ih _ c v (fun e he => h e (List.mem_cons_of_mem x he)),
      lookupEv_upsertRow_other]
    exact h x (List.mem_cons_self x rest)

/-- After `upsertEvents`, the lookup of any batch key returns the stored
row of some batch record with that key (the last write). -/
theorem lookupEv_upsertEvents_mem (events : List EventRecord) :
    ∀ (t : List StoredRow) (c v : String),
      (∃ e ∈ events, e.calendar_id = c ∧ e.event_id = v) →
      ∃ e2 ∈ events, e2.calendar_id = c ∧ e2.event_id = v ∧
        lookupEv (upsertEvents t events) c v = some (toStoredRow e2) := by
  induction events with
  | nil => intro t c v h; exact absurd h (by simp)
  | cons x rest ih =>
    intro t c v h
    have hstep : upsertEvents t (x :: rest) =
        upsertEvents (upsertRow t (toStoredRow x)) rest := rfl
    by_cases hr : ∃ e ∈ rest, e.calendar_id = c ∧ e.event_id = v
    · obtain ⟨e2, he2, hc, hv, hlook⟩ :=
        ih (upsertRow t (toStoredRow x)) c v hr
      exact ⟨e2, List.mem_cons_of_mem x he2, hc, hv, hstep ▸ hlook⟩
    · have hx : x.calendar_id = c ∧ x.event_id = v := by
        obtain ⟨e, he, hk⟩ := h
        rcases List.mem_cons.mp he with rfl | hmem
        · exact hk
        · exact absurd ⟨e, hmem, hk⟩ hr
      refine ⟨x, List.mem_cons_self x rest, hx.1, hx.2, ?_⟩
      rw [hstep, lookupEv_upsertEvents_untouched rest _ c v
        (fun e he hk => hr ⟨e, he, hk⟩)]
      have := lookupEv_upsertRow_self t (toStoredRow x)
      rw [show (toStoredRow x).calendar_id = x.calendar_id from rfl,
        show (toStoredRow x).event_id = x.event_id from rfl,
        hx.1, hx.2] at this
      exact this

/-- The guild fold ignores an empty diff set: no ledger writes, no posts. -/
theorem guildFold_empty_diffs (fmtWhen : String → String)
    (sendOk : String → String → Bool) (subs : List (String × String))
    (cals : List (String × Option String)) :
    ∀ (rows : List (String × String)) (st : List LKey × List Post),
      rows.foldl (guildFoldStep fmtWhen sendOk subs cals []) st = st := by
  intro rows
  induction rows with
  | nil => intro st; rfl
  | cons row rest ih =>
    intro st
    rw [List.foldl_cons]
    have hone : guildFoldStep fmtWhen sendOk subs cals [] st row = st := by
      simp [guildFoldStep]
    rw [hone, ih]

/-! ## C5: re-running after the upsert is quiescent -/

/-- C5, amended: for a batch in which records sharing a
`(calendar_id, event_id)` key have equal content hashes (in particular
any batch with distinct keys), running `computeDiff` after `upsertEvents`
has committed that batch yields an empty diff, and dispatching that empty
diff produces zero outbound posts and zero new ledger entries. -/
theorem rerun_after_upsert_quiescent (table : List StoredRow)
    (events : List EventRecord)
    (hdup : ∀ e1 ∈ events, ∀ e2 ∈ events,
      e1.calendar_id = e2.calendar_id → e1.event_id = e2.event_id →
      hashEvent e1 = hashEvent e2)
    (fmtWhen : String → String) (sendOk : String → String → Bool)
    (gs : List (String × Option String)) (subs : List (String × String))
    (cals : List (String × Option String)) (L0 : List LKey) :
    computeDiff (upsertEvents table events) events = [] ∧
    sendNotificationsV1 fmtWhen sendOk gs subs cals
      (computeDiff (upsertEvents table events) events) L0 = (L0, []) := by
  have hempty : computeDiff (upsertEvents table events) events = [] := by
    rw [computeDiff, diffFold_filterMap, List.nil_append,
      List.filterMap_eq_nil_iff]
    intro e he
    obtain ⟨e2, he2, hc, hv, hlook⟩ := lookupEv_upsertEvents_mem events table
      e.calendar_id e.event_id ⟨e, he, rfl, rfl⟩
    have hhash : hashEvent e2 = hashEvent e := hdup e2 he2 e he hc hv
    simp only [classifySpec, hlook, toStoredRow, hhash]
    simp
  refine ⟨hempty, ?_⟩
  rw [hempty]
  exact guildFold_empty_diffs fmtWhen sendOk subs cals (guildRows gs) (L0, [])

/-- Witness for C5 (amended): the singleton batch. -/
theorem rerun_after_upsert_quiescent_witness :
    computeDiff (upsertEvents [] [evT1]) [evT1] = [] ∧
    sendNotificationsV1 strId (fun _ _ => true) [("g", some "c")]
      [("g", "A")] [] (computeDiff (upsertEvents [] [evT1]) [evT1]) [] =
      ([], []) := by
  apply rerun_after_upsert_quiescent
  intro e1 h1 e2 h2 _ _
  rw [List.mem_singleton] at h1 h2
  rw [h1, h2]

/-! ## C1 and C2: the guild/ledger dispatcher -/

/-- The lines a guild's diff loop collects do not depend on the ledger it
is handed. -/
theorem guildLines_ledger_blind (fmtWhen : String → String)
    (subs : List (String × String)) (cals : List (String × Option String))
    (g : String) (diffs : List DiffEntry) :
    ∀ (L1 L2 : List LKey) (acc : List String),
      (diffs.foldl (guildStep fmtWhen subs cals g) (L1, acc)).2 =
      (diffs.foldl (guildStep fmtWhen subs cals g) (L2, acc)).2 := by
  induction diffs with
  | nil => intro L1 L2 acc; rfl
  | cons d rest ih =>
    intro L1 L2 acc
    rw [List.foldl_cons, List.foldl_cons]
    by_cases h : subscribedB subs g d.calendar_id = true
    · simp only [guildStep, if_pos h]
      exact ih _ _ _
    · simp only [guildStep, if_neg h]
      exact ih _ _ _

/-- The posts accumulated by the guild loop do not depend on the initial
ledger. -/
theorem sendV1_posts_aux (fmtWhen : String → String)
    (sendOk : String → String → Bool) (subs : List (String × String))
    (cals : List (String × Option String)) (diffs : List DiffEntry) :
    ∀ (rows : List (String × String)) (L1 L2 : List LKey)
      (posts : List Post),
      (rows.foldl (guildFoldStep fmtWhen sendOk subs cals diffs)
        (L1, posts)).2 =
      (rows.foldl (guildFoldStep fmtWhen sendOk subs cals diffs)
        (L2, posts)).2 := by
  intro rows
  induction rows with
  | nil => intro L1 L2 posts; rfl
  | cons row rest ih =>
    intro L1 L2 posts
    rw [List.foldl_cons, List.foldl_cons]
    have hl := guildLines_ledger_blind fmtWhen subs cals row.1 diffs L1 L2 []
    simp only [guildFoldStep, hl]
    by_cases h :
        (diffs.foldl (guildStep fmtWhen subs cals row.1) (L2, [])).2 = []
    · rw [if_pos h, if_pos h]
      exact ih _ _ _
    · rw [if_neg h, if_neg h]
      exact ih _ _ _

/-- C1, amended: the guild/ledger `sendNotifications` never consults the
ledger when building messages — the posts are identical for any two
initial ledgers, so a pre-existing ledger entry for
`(destination, calendar_id, event_id, classification)` does not omit that
entry's line; the `INSERT OR IGNORE` only keeps the ledger free of
duplicate rows. -/
theorem sendNotificationsV1_posts_ledger_blind (fmtWhen : String → String)
    (sendOk : String → String → Bool) (gs : List (String × Option String))
    (subs : List (String × String)) (cals : List (String × Option String))
    (diffs : List DiffEntry) (L1 L2 : List LKey) :
    (sendNotificationsV1 fmtWhen sendOk gs subs cals diffs L1).2 =
    (sendNotificationsV1 fmtWhen sendOk gs subs cals diffs L2).2 :=
  sendV1_posts_aux fmtWhen sendOk subs cals diffs (guildRows gs) L1 L2 []

/-- Counterexample for C1 as stated: with the ledger already holding the
key of the single subscribed NEW entry, the message sent to the
destination still consists of exactly that entry's line — nothing is
omitted. -/
theorem ledger_preexisting_key_still_sent_cx :
    (sendNotificationsV1 strId (fun _ _ => true) [("g", some "c")]
      [("g", "A")] [] [dNew] [lkeyOf "g" dNew]).2 =
      [Post.mk "c" (formatEventLineV1 strId "T" "S" none none) true] := by
  decide

/-- The inserted key is in the ledger after `ledgerInsert`. -/
theorem mem_ledgerInsert_self (L : List LKey) (k : LKey) :
    k ∈ ledgerInsert L k := by
  unfold ledgerInsert
  by_cases h : k ∈ L
  · rw [if_pos h]; exact h
  · rw [if_neg h]
    exact List.mem_append.mpr (Or.inr (List.mem_singleton.mpr rfl))

/-- `ledgerInsert` never removes ledger entries. -/
theorem mem_ledgerInsert_of (L : List LKey) (k k2 : LKey) (h : k ∈ L) :
    k ∈ ledgerInsert L k2 := by
  unfold ledgerInsert
  by_cases h2 : k2 ∈ L
  · rw [if_pos h2]; exact h
  · rw [if_neg h2]; exact List.mem_append.mpr (Or.inl h)

/-- The guild diff loop never removes ledger entries. -/
theorem guildStep_fold_mem (fmtWhen : String → String)
    (subs : List (String × String)) (cals : List (String × Option String))
    (g : String) (diffs : List DiffEntry) :
    ∀ (st : List LKey × List String) (k : LKey), k ∈ st.1 →
      k ∈ (diffs.foldl (guildStep fmtWhen subs cals g) st).1 := by
  induction diffs with
  | nil => intro st k h; exact h
  | cons d rest ih =>
    intro st k h
    rw [List.foldl_cons]
    apply ih
    unfold guildStep
    by_cases hs : subscribedB subs g d.calendar_id = true
    · rw [if_pos hs]
      exact mem_ledgerInsert_of _ _ _ h
    · rw [if_neg hs]
      exact h

/-- The guild diff loop inserts the ledger key of every subscribed diff
entry — before and regardless of any transport call. -/
theorem guildStep_fold_inserts (fmtWhen : String → String)
    (subs : List (String × String)) (cals : List (String × Option String))
    (g : String) (diffs : List DiffEntry) :
    ∀ (st : List LKey × List String) (d : DiffEntry), d ∈ diffs →
      subscribedB subs g d.calendar_id = true →
      lkeyOf g d ∈ (diffs.foldl (guildStep fmtWhen subs cals g) st).1 := by
  induction diffs with
  | nil => intro st d h; cases h
  | cons x rest ih =>
    intro st d hd hs
    rw [List.foldl_cons]
    rcases List.mem_cons.mp hd with rfl | hmem
    · apply guildStep_fold_mem
      unfold guildStep
      rw [if_pos hs]
      exact mem_ledgerInsert_self _ _
    · exact ih _ d hmem hs

/-- The ledger component of one outer-loop step is the inner loop's
ledger, in both the posted and the skipped branch. -/
theorem guildFoldStep_fst (fmtWhen : String → String)
    (sendOk : String → String → Bool) (subs : List (String × String))
    (cals : List (String × Option String)) (diffs : List DiffEntry)
    (st : List LKey × List Post) (row : String × String) :
    (guildFoldStep fmtWhen sendOk subs cals diffs st row).1 =
    (diffs.foldl (guildStep fmtWhen subs cals row.1) (st.1, [])).1 := by
  unfold guildFoldStep
  by_cases hr :
      (diffs.foldl (guildStep fmtWhen subs cals row.1) (st.1, [])).2 = [] <;>
  simp [hr]

/-- The outer guild fold never removes ledger entries. -/
theorem sendV1_fold_mem (fmtWhen : String → String)
    (sendOk : String → String → Bool) (subs : List (String × String))
    (cals : List (String × Option String)) (diffs : List DiffEntry) :
    ∀ (rows : List (String × String)) (st : List LKey × List Post)
      (k : LKey), k ∈ st.1 →
      k ∈ (rows.foldl (guildFoldStep fmtWhen sendOk subs cals diffs) st).1 := by
  intro rows
  induction rows with
  | nil => intro st k h; exact h
  | cons row rest ih =>
    intro st k h
    rw [List.foldl_cons]
    apply ih
    rw [guildFoldStep_fst]
    exact guildStep_fold_mem fmtWhen subs cals row.1 diffs (st.1, []) k h

/-- The outer guild fold writes the ledger key of every subscribed diff
entry of every settings row it processes. -/
theorem sendV1_fold_inserts (fmtWhen : String → String)
    (sendOk : String → String → Bool) (subs : List (String × String))
    (cals : List (String × Option String)) (diffs : List DiffEntry) :
    ∀ (rows : List (String × String)) (st : List LKey × List Post)
      (g ch : String) (d : DiffEntry), (g, ch) ∈ rows → d ∈ diffs →
      subscribedB subs g d.calendar_id = true →
      lkeyOf g d ∈
        (rows.foldl (guildFoldStep fmtWhen sendOk subs cals diffs) st).1 := by
  intro rows
  induction rows with
  | nil => intro st g ch d h; cases h
  | cons row rest ih =>
    intro st g ch d hrow hd hs
    rw [List.foldl_cons]
    rcases List.mem_cons.mp hrow with heq | hmem
    · apply sendV1_fold_mem
      rw [guildFoldStep_fst]
      have h1 : row.1 = g := by rw [← heq]
      rw [h1]
      exact guildStep_fold_inserts fmtWhen subs cals g diffs _ d hd hs
    · exact ih _ g ch d hmem hd hs

/-- C2, amended: ledger entries are appended during line collection,
before any transport call — after `sendNotifications` returns, the
`(guild, calendar_id, event_id, classification)` key of every subscribed
diff entry of every destination row is in the ledger, whether or not that
destination's transport call succeeded (including `sendOk` constantly
false). -/
theorem sendNotificationsV1_ledger_written_regardless
    (fmtWhen : String → String) (sendOk : String → String → Bool)
    (gs : List (String × Option String)) (subs : List (String × String))
    (cals : List (String × Option String)) (diffs : List DiffEntry)
    (L0 : List LKey) (g ch : String) (d : DiffEntry)
    (hg : (g, ch) ∈ guildRows gs) (hd : d ∈ diffs)
    (hs : subscribedB subs g d.calendar_id = true) :
    lkeyOf g d ∈ (sendNotificationsV1 fmtWhen sendOk gs subs cals diffs L0).1 :=
  sendV1_fold_inserts fmtWhen sendOk subs cals diffs (guildRows gs)
    (L0, []) g ch d hg hd hs

/-- Witness for C2 (amended): a concrete run whose only transport call
fails still ends with the subscribed entry's ledger key present. -/
theorem sendNotificationsV1_ledger_written_regardless_witness :
    lkeyOf "g" dNew ∈ (sendNotificationsV1 strId (fun _ _ => false)
      [("g", some "c")] [("g", "A")] [] [dNew] []).1 :=
  sendNotificationsV1_ledger_written_regardless strId (fun _ _ => false)
    [("g", some "c")] [("g", "A")] [] [dNew] [] "g" "c" dNew
    (by decide) (by decide) (by decide)

/-- Counterexample for C2 as stated: the transport call for the only
destination fails (`ok = false`), yet after `sendNotifications` returns
the ledger — empty beforehand — contains the entry's key. -/
theorem ledger_written_despite_failed_send_cx :
    sendNotificationsV1 strId (fun _ _ => false) [("g", some "c")]
      [("g", "A")] [] [dNew] [] =
      ([lkeyOf "g" dNew],
       [Post.mk "c" (formatEventLineV1 strId "T" "S" none none) false]) := by
  decide

/-! ## C6: chunking -/

/-- The budget-exceeded branch of `chunkStep`, as an equation. -/
theorem chunkStep_pos (header footer : String) (maxLen : Nat)
    (st : ChunkSt) (l : String)
    (h : maxLen < (st.current ++ "\n" ++ l).length + footer.length) :
    chunkStep header footer maxLen st l =
      ⟨st.chunks ++ [st.current], header ++ "\n" ++ l⟩ := by
  unfold chunkStep
  rw [if_pos h]

/-- The chunking fold only ever appends closed chunks. -/
theorem chunkFold_chunks_mono (header footer : String) (maxLen : Nat)
    (lines : List String) :
    ∀ st : ChunkSt, ∃ suf,
      (lines.foldl (chunkStep header footer maxLen) st).chunks =
        st.chunks ++ suf := by
  induction lines with
  | nil => intro st; exact ⟨[], by simp⟩
  | cons l rest ih =>
    intro st
    rw [List.foldl_cons]
    by_cases h : maxLen < (st.current ++ "\n" ++ l).length + footer.length
    · have hstep : chunkStep header footer maxLen st l =
          ⟨st.chunks ++ [st.current], header ++ "\n" ++ l⟩ := by
        unfold chunkStep; rw [if_pos h]
      rw [hstep]
      obtain ⟨suf, hsuf⟩ := ih ⟨st.chunks ++ [st.current], header ++ "\n" ++ l⟩
      exact ⟨[st.current] ++ suf, by rw [hsuf]; simp⟩
    · have hstep : chunkStep header footer maxLen st l =
          ⟨st.chunks, st.current ++ "\n" ++ l⟩ := by
        unfold chunkStep; rw [if_neg h]
      rw [hstep]
      obtain ⟨suf, hsuf⟩ := ih ⟨st.chunks, st.current ++ "\n" ++ l⟩
      exact ⟨suf, hsuf⟩

/-- If the whole fold closes no chunk, then every line was appended to
the open chunk: the final open chunk is the full rendered text, and
(for a non-empty line list) the last append passed the budget check. -/
theorem chunkFold_nil_chunks (header footer : String) (maxLen : Nat)
    (lines : List String) :
    ∀ st : ChunkSt,
      (lines.foldl (chunkStep header footer maxLen) st).chunks = [] →
      st.chunks = [] ∧
      (lines.foldl (chunkStep header footer maxLen) st).current =
        joinedAfter st.current lines ∧
      (lines = [] ∨
        (lines.foldl (chunkStep header footer maxLen) st).current.length +
          footer.length ≤ maxLen) := by
  induction lines with
  | nil => intro st h; exact ⟨h, rfl, Or.inl rfl⟩
  | cons l rest ih =>
    intro st h
    rw [List.foldl_cons] at h
    by_cases hc : maxLen < (st.current ++ "\n" ++ l).length + footer.length
    · exfalso
      obtain ⟨suf, hsuf⟩ := chunkFold_chunks_mono header footer maxLen rest
        (chunkStep header footer maxLen st l)
      rw [h] at hsuf
      have hnil : (chunkStep header footer maxLen st l).chunks = [] :=
        (List.append_eq_nil.mp hsuf.symm).1
      have hstep : chunkStep header footer maxLen st l =
          ⟨st.chunks ++ [st.current], header ++ "\n" ++ l⟩ := by
        unfold chunkStep; rw [if_pos hc]
      rw [hstep] at hnil
      exact absurd hnil (by simp)
    · have hstep : chunkStep header footer maxLen st l =
          ⟨st.chunks, st.current ++ "\n" ++ l⟩ := by
        unfold chunkStep; rw [if_neg hc]
      rw [hstep] at h
      obtain ⟨h1, h2, h3⟩ := ih ⟨st.chunks, st.current ++ "\n" ++ l⟩ h
      refine ⟨h1, ?_, ?_⟩
      · rw [List.foldl_cons, hstep]
        exact h2
      · right
        rw [List.foldl_cons, hstep]
        rcases h3 with hrest | hbound
        · rw [hrest]
          simp only [List.foldl_nil]
          exact Nat.le_of_not_lt hc
        · exact hbound

/-- Under the per-line fit hypothesis, every chunk the fold produces
(closed or open) fits the budget together with the footer. -/
theorem chunkFold_bounded (header footer : String) (maxLen : Nat)
    (lines : List String)
    (hfit : ∀ l ∈ lines, (header ++ "\n" ++ l).length + footer.length ≤ maxLen) :
    ∀ st : ChunkSt,
      (∀ c ∈ st.chunks, c.length + footer.length ≤ maxLen) →
      st.current.length + footer.length ≤ maxLen →
      (∀ c ∈ (lines.foldl (chunkStep header footer maxLen) st).chunks,
        c.length + footer.length ≤ maxLen) ∧
      (lines.foldl (chunkStep header footer maxLen) st).current.length +
        footer.length ≤ maxLen := by
  induction lines with
  | nil => intro st h1 h2; exact ⟨h1, h2⟩
  | cons l rest ih =>
    intro st h1 h2
    have hfit' : ∀ x ∈ rest,
        (header ++ "\n" ++ x).length + footer.length ≤ maxLen :=
      fun x hx => hfit x (List.mem_cons_of_mem l hx)
    rw [List.foldl_cons]
    by_cases hc : maxLen < (st.current ++ "\n" ++ l).length + footer.length
    · have hstep : chunkStep header footer maxLen st l =
          ⟨st.chunks ++ [st.current], header ++ "\n" ++ l⟩ := by
        unfold chunkStep; rw [if_pos hc]
      rw [hstep]
      refine ih hfit' _ ?_ ?_
      · intro c hcm
        rcases List.mem_append.mp hcm with hcm | hcm
        · exact h1 c hcm
        · rw [List.mem_singleton.mp hcm]
          exact h2
      · exact hfit l (List.mem_cons_self l rest)
    · have hstep : chunkStep header footer maxLen st l =
          ⟨st.chunks, st.current ++ "\n" ++ l⟩ := by
        unfold chunkStep; rw [if_neg hc]
      rw [hstep]
      exact ih hfit' _ h1 (Nat.le_of_not_lt hc)

/-- Every chunk the fold produces (closed or open) starts with the
header. -/
theorem chunkFold_headed (header footer : String) (maxLen : Nat)
    (lines : List String) :
    ∀ st : ChunkSt,
      (∀ c ∈ st.chunks, ∃ t, c = header ++ t) →
      (∃ t, st.current = header ++ t) →
      (∀ c ∈ (lines.foldl (chunkStep header footer maxLen) st).chunks,
        ∃ t, c = header ++ t) ∧
      (∃ t, (lines.foldl (chunkStep header footer maxLen) st).current =
        header ++ t) := by
  induction lines with
  | nil => intro st h1 h2; exact ⟨h1, h2⟩
  | cons l rest ih =>
    intro st h1 h2
    rw [List.foldl_cons]
    by_cases hc : maxLen < (st.current ++ "\n" ++ l).length + footer.length
    · have hstep : chunkStep header footer maxLen st l =
          ⟨st.chunks ++ [st.current], header ++ "\n" ++ l⟩ := by
        unfold chunkStep; rw [if_pos hc]
      rw [hstep]
      refine ih _ ?_ ⟨"\n" ++ l, String.append_assoc header "\n" l⟩
      intro c hcm
      rcases List.mem_append.mp hcm with hcm | hcm
      · exact h1 c hcm
      · rw [List.mem_singleton.mp hcm]
        exact h2
    · have hstep : chunkStep header footer maxLen st l =
          ⟨st.chunks, st.current ++ "\n" ++ l⟩ := by
        unfold chunkStep; rw [if_neg hc]
      rw [hstep]
      obtain ⟨t, ht⟩ := h2
      refine ih _ h1 ⟨t ++ "\n" ++ l, ?_⟩
      rw [ht]
      simp [String.append_assoc]

/-- C6, amended: for a non-empty line list, unconditionally every
emitted message begins with the fixed header, and whenever the full
rendered text exceeds the 4000 budget at least two messages are emitted;
every emitted message is within the budget provided each line fits in a
chunk by itself (header + newline + line + footer within 4000). (Without
the per-line proviso a single oversized line makes its message exceed
the budget — see the counterexample.) -/
theorem chunking_header_budget_split (lines : List String)
    (hne : lines ≠ []) :
    (∀ m ∈ messageContents lines, ∃ t, m = ntfHeader ++ t) ∧
    (maxMsgLen < (joinedAfter ntfHeader lines).length + ntfFooter.length →
      2 ≤ (messageContents lines).length) ∧
    ((∀ l ∈ lines,
        (ntfHeader ++ "\n" ++ l).length + ntfFooter.length ≤ maxMsgLen) →
      ∀ m ∈ messageContents lines, m.length ≤ maxMsgLen) := by
  have hD := chunkFold_headed ntfHeader ntfFooter maxMsgLen lines
    ⟨[], ntfHeader⟩ (by intro c hc; cases hc)
    ⟨"", (String.append_empty ntfHeader).symm⟩
  obtain ⟨tcur, htcur⟩ := hD.2
  have htrim : jsTrim (lines.foldl
      (chunkStep ntfHeader ntfFooter maxMsgLen) ⟨[], ntfHeader⟩).current ≠ "" := by
    rw [htcur]
    exact jsTrim_header_ne_empty tcur
  have hchunks : chunkLines ntfHeader ntfFooter maxMsgLen lines =
      (lines.foldl (chunkStep ntfHeader ntfFooter maxMsgLen)
        ⟨[], ntfHeader⟩).chunks ++
      [(lines.foldl (chunkStep ntfHeader ntfFooter maxMsgLen)
        ⟨[], ntfHeader⟩).current] := by
    unfold chunkLines
    rw [if_pos htrim]
  refine ⟨?_, ?_, ?_⟩
  · intro m hm
    rw [messageContents, hchunks] at hm
    obtain ⟨c, hcmem, hceq⟩ := List.mem_map.mp hm
    have hch : ∃ t, c = ntfHeader ++ t := by
      rcases List.mem_append.mp hcmem with hcm | hcm
      · exact hD.1 c hcm
      · rw [List.mem_singleton.mp hcm]
        exact hD.2
    obtain ⟨t, ht⟩ := hch
    exact ⟨t ++ ntfFooter, by rw [← hceq, ht, String.append_assoc]⟩
  · intro hbig
    rw [messageContents, hchunks, List.length_map, List.length_append,
      List.length_singleton]
    by_cases hnil : (lines.foldl (chunkStep ntfHeader ntfFooter maxMsgLen)
        ⟨[], ntfHeader⟩).chunks = []
    · exfalso
      obtain ⟨_, h2, h3⟩ := chunkFold_nil_chunks ntfHeader ntfFooter maxMsgLen
        lines ⟨[], ntfHeader⟩ hnil
      rcases h3 with h3 | h3
      · exact hne h3
      · rw [h2] at h3
        exact absurd h3 (Nat.not_le_of_lt hbig)
    · have : 1 ≤ (lines.foldl (chunkStep ntfHeader ntfFooter maxMsgLen)
          ⟨[], ntfHeader⟩).chunks.length :=
        Nat.one_le_iff_ne_zero.mpr
          (fun hz => hnil (List.length_eq_zero.mp hz))
      omega
  · intro hfit m hm
    have hC := chunkFold_bounded ntfHeader ntfFooter maxMsgLen lines hfit
      ⟨[], ntfHeader⟩ (by intro c hc; cases hc) (by decide)
    rw [messageContents, hchunks] at hm
    obtain ⟨c, hcmem, hceq⟩ := List.mem_map.mp hm
    have hcb : c.length + ntfFooter.length ≤ maxMsgLen := by
      rcases List.mem_append.mp hcmem with hcm | hcm
      · exact hC.1 c hcm
      · rw [List.mem_singleton.mp hcm]
        exact hC.2
    rw [← hceq, String.length_append]
    exact hcb

/-- Witness for C6 (amended): the singleton line list. -/
theorem chunking_header_budget_split_witness :
    (∀ m ∈ messageContents ["x"], ∃ t, m = ntfHeader ++ t) ∧
    (maxMsgLen < (joinedAfter ntfHeader ["x"]).length + ntfFooter.length →
      2 ≤ (messageContents ["x"]).length) ∧
    ((∀ l ∈ (["x"] : List String),
        (ntfHeader ++ "\n" ++ l).length + ntfFooter.length ≤ maxMsgLen) →
      ∀ m ∈ messageContents ["x"], m.length ≤ maxMsgLen) :=
  chunking_header_budget_split ["x"] (by decide)

/-- Any single line too long for the budget yields an over-budget
message: the loop closes the bare header as its own chunk and the
oversized line goes out unsplit. -/
theorem chunk_oversized (L : String)
    (hL : maxMsgLen < (ntfHeader ++ "\n" ++ L).length + ntfFooter.length) :
    ∃ m ∈ messageContents [L], maxMsgLen < m.length := by
  have hcond : maxMsgLen <
      (((⟨[], ntfHeader⟩ : ChunkSt).current ++ "\n" ++ L)).length +
        ntfFooter.length := hL
  have hfold : [L].foldl (chunkStep ntfHeader ntfFooter maxMsgLen)
      ⟨[], ntfHeader⟩ =
      ⟨[ntfHeader], ntfHeader ++ "\n" ++ L⟩ := by
    rw [List.foldl_cons, List.foldl_nil,
      chunkStep_pos ntfHeader ntfFooter maxMsgLen ⟨[], ntfHeader⟩ L hcond]
    rfl
  have htrim : jsTrim (ntfHeader ++ "\n" ++ L) ≠ "" := by
    rw [String.append_assoc]
    exact jsTrim_header_ne_empty ("\n" ++ L)
  have hchunk : chunkLines ntfHeader ntfFooter maxMsgLen [L] =
      [ntfHeader, ntfHeader ++ "\n" ++ L] := by
    unfold chunkLines
    rw [hfold, if_pos htrim]
    rfl
  refine ⟨ntfHeader ++ "\n" ++ L ++ ntfFooter, ?_, ?_⟩
  · rw [messageContents, hchunk]
    exact List.mem_map.mpr ⟨ntfHeader ++ "\n" ++ L, by simp, rfl⟩
  · rw [String.length_append]
    exact hL

set_option maxRecDepth 100000 in
/-- Counterexample for C6 as stated: a single 3930-character line makes
the dispatcher emit a message of 4006 characters, over the fixed 4000
budget. -/
theorem chunk_budget_exceeded_cx :
    ∃ m ∈ messageContents [bigLine], maxMsgLen < m.length := by
  apply chunk_oversized
  have hbig : bigLine.length = 3930 := by
    show (List.replicate 3930 'a').length = 3930
    exact List.length_replicate 3930 'a'
  rw [String.length_append, String.length_append, hbig]
  decide

/-! ## C7 and C10: the snapshot loader -/

/-- Unfolding equation for `loadDirFiles` on a cons. -/
theorem loadDirFiles_cons (parse : String → ParseOutcome) (f : FileEntry)
    (rest : List FileEntry) :
    loadDirFiles parse (f :: rest) =
      match loadFileM parse f with
      | .error e => .error e
      | .ok recs => (loadDirFiles parse rest).map (fun more => recs ++ more) :=
  rfl

/-- `loadFileM` either fails with a parse error or returns records. -/
theorem loadFileM_cases (parse : String → ParseOutcome) (f : FileEntry) :
    loadFileM parse f = .error .parseErr ∨
    ∃ recs, loadFileM parse f = .ok recs := by
  unfold loadFileM
  by_cases hb : jsTrim f.raw = ""
  · rw [if_pos hb]
    exact Or.inr ⟨[], rfl⟩
  · rw [if_neg hb]
    cases hp : parse f.raw
    · exact Or.inl rfl
    · exact Or.inr ⟨[], rfl⟩
    · exact Or.inr ⟨_, rfl⟩

/-- A non-blank file whose parse throws aborts the whole directory fold
with a `ParseError`, wherever it sits in the listing. -/
theorem loadDir_parse_error (parse : String → ParseOutcome)
    (files : List FileEntry) :
    ∀ f : FileEntry, f ∈ files → jsTrim f.raw ≠ "" → parse f.raw = .err →
      loadDirFiles parse files = .error .parseErr := by
  induction files with
  | nil => intro f h; cases h
  | cons x rest ih =>
    intro f hf hraw herr
    rcases loadFileM_cases parse x with hx | ⟨recs, hx⟩
    · rw [loadDirFiles_cons, hx]
    · rw [loadDirFiles_cons, hx]
      have hfr : f ∈ rest := by
        rcases List.mem_cons.mp hf with rfl | hm
        · exfalso
          unfold loadFileM at hx
          rw [if_neg hraw, herr] at hx
          cases hx
        · exact hm
      rw [ih f hfr hraw herr]
      rfl

/-- C7, amended: a malformed (non-blank, unparseable) `.json` file in a
loaded directory is fatal to the *whole* load — `loadEventsFromJson`
returns a `ParseError` and no records from the other well-formed files —
and a missing input path aborts with an `IOError`. (Only whitespace-only
or non-array files are skipped per-file; there is no try/catch around the
per-file parse.) -/
theorem malformed_file_fatal_whole_load (parse : String → ParseOutcome)
    (files : List FileEntry) (f : FileEntry) (hf : f ∈ files)
    (hname : endsWithJson f.name = true) (hraw : jsTrim f.raw ≠ "")
    (herr : parse f.raw = .err) :
    loadEventsFromJson parse (some (.dir files)) = .error .parseErr ∧
    loadEventsFromJson parse none = .error .ioErr := by
  refine ⟨?_, rfl⟩
  unfold loadEventsFromJson
  exact loadDir_parse_error parse _ f
    (List.mem_filter.mpr ⟨hf, hname⟩) hraw herr

/-- Witness for C7 (amended): a directory with one well-formed and one
malformed file. -/
theorem malformed_file_fatal_whole_load_witness :
    loadEventsFromJson toyParse
      (some (.dir [⟨"a.json", "[1]"⟩, ⟨"b.json", "bad"⟩])) =
      .error .parseErr ∧
    loadEventsFromJson toyParse none = .error .ioErr :=
  malformed_file_fatal_whole_load toyParse
    [⟨"a.json", "[1]"⟩, ⟨"b.json", "bad"⟩] ⟨"b.json", "bad"⟩
    (by decide) (by decide) (by decide) (by decide)

/-- Counterexample for C7 as stated: the directory holds a well-formed
file `a.json` (one record) and a malformed `b.json`; the claim promises
`a.json`'s records are still returned, but the load returns a
`ParseError` and no records at all. -/
theorem malformed_file_aborts_load_cx :
    loadEventsFromJson toyParse
      (some (.dir [⟨"a.json", "[1]"⟩, ⟨"b.json", "bad"⟩])) =
      .error .parseErr := by
  rfl

/-- A file loading as zero records drops out of the directory fold. -/
theorem loadDir_skip (parse : String → ParseOutcome) (f : FileEntry)
    (hok : loadFileM parse f = .ok []) :
    ∀ xs ys : List FileEntry,
      loadDirFiles parse (xs ++ f :: ys) = loadDirFiles parse (xs ++ ys) := by
  intro xs
  induction xs with
  | nil =>
    intro ys
    show loadDirFiles parse (f :: ys) = loadDirFiles parse ys
    rw [loadDirFiles_cons, hok]
    cases h : loadDirFiles parse ys <;> simp [h, Except.map]
  | cons x rest ih =>
    intro ys
    show loadDirFiles parse (x :: (rest ++ f :: ys)) =
      loadDirFiles parse (x :: (rest ++ ys))
    rw [loadDirFiles_cons, loadDirFiles_cons]
    cases hx : loadFileM parse x
    · rfl
    · rw [ih ys]

/-- C10: a whitespace-only or non-array-JSON file contributes zero
records and raises no error — the load of a directory containing it
equals the load of the same directory without it, so records from the
other files are unaffected. -/
theorem skipped_file_contributes_nothing (parse : String → ParseOutcome)
    (xs ys : List FileEntry) (f : FileEntry)
    (hskip : jsTrim f.raw = "" ∨ parse f.raw = .nonArray) :
    loadEventsFromJson parse (some (.dir (xs ++ f :: ys))) =
    loadEventsFromJson parse (some (.dir (xs ++ ys))) := by
  have hok : loadFileM parse f = .ok [] := by
    unfold loadFileM
    rcases hskip with hb | hn
    · rw [if_pos hb]
    · by_cases hb : jsTrim f.raw = ""
      · rw [if_pos hb]
      · rw [if_neg hb, hn]
  show loadDirFiles parse ((xs ++ f :: ys).filter fun g => endsWithJson g.name) =
    loadDirFiles parse ((xs ++ ys).filter fun g => endsWithJson g.name)
  rw [List.filter_append, List.filter_append]
  by_cases hp : endsWithJson f.name = true
  · rw [@List.filter_cons_of_pos _ (fun g => endsWithJson g.name) f ys hp]
    exact loadDir_skip parse f hok _ _
  · rw [@List.filter_cons_of_neg _ (fun g => endsWithJson g.name) f ys hp]

/-- Witness for C10: a directory with one well-formed file and one
whitespace-only file. -/
theorem skipped_file_contributes_nothing_witness :
    loadEventsFromJson toyParse
      (some (.dir ([⟨"a.json", "[1]"⟩] ++ ⟨"w.json", "  "⟩ :: []))) =
    loadEventsFromJson toyParse (some (.dir ([⟨"a.json", "[1]"⟩] ++ []))) :=
  skipped_file_contributes_nothing toyParse [⟨"a.json", "[1]"⟩] []
    ⟨"w.json", "  "⟩ (Or.inl (by decide))

/-! ## C8: the NEW-event line and the `is_global` flag -/

/-- C8, amended: the rendered line of every NEW diff entry contains the
localized start-time suffix `" @ " ++ formatWhen(starts_at)` — the
formatter never reads `is_global`, so global-flagged events get the
suffix too. -/
theorem new_line_always_has_time_suffix (fmtWhen : String → String)
    (cal ev : String) (p : EventRecord) (prev? : Option EventRecord) :
    ∃ u v, buildLines fmtWhen [⟨cal, ev, .new_event, p, prev?⟩] =
      [u ++ (" @ " ++ fmtWhen p.starts_at) ++ v] := by
  refine ⟨"- " ++ p.title ++ calSuffix p.calendar_name,
    linkSuffix " - " p.url, ?_⟩
  show [] ++ [formatEventLine fmtWhen p.title p.starts_at p.url
    p.calendar_name] = _
  simp [formatEventLine, String.append_assoc]

/-- Counterexample for C8 as stated: a NEW entry whose payload has
`is_global = true` still renders with the localized start-time suffix
(here with the identity localiser: the line is `- T @ S`, which contains
`" @ S"`). -/
theorem global_event_line_has_time_cx :
    buildLines strId [dNewGlobal] = ["- T @ S"] ∧
    containsSub "- T @ S" (" @ " ++ strId "S") = true := by
  constructor
  · decide
  · decide

set_option maxRecDepth 40000 in
/-- Counterexample for C5 as stated: a batch containing two records with
the same `(calendar_id, event_id)` key but different titles is committed
by `upsertEvents` (last write wins), yet `computeDiff` over that same
batch afterwards is not empty — the first record's hash differs from the
stored one. -/
theorem rerun_diff_not_empty_cx :
    computeDiff (upsertEvents [] [evT1, evT2]) [evT1, evT2] ≠ [] := by
  decide

end FabEvents
